import Mathlib

/-
  Verification of the pi-voice daemon against its design document.

  The definitions below are a shallow embedding of the TypeScript sources:
  pure numeric code becomes functions over ℚ/ℤ/ℕ, stateful code becomes
  explicit state records with step functions folded over event lists, and
  fallible code returns Except/Option.  Each definition's doc comment names
  the source location it embeds.
-/

namespace PiVoice

/- ── §4.3/§4.4 Audio numeric contract (audio-engine.ts) ─────────────── -/

/-- JS Math.round over the rationals: rounds half toward positive infinity,
i.e. Math.round(x) = floor(x + 0.5). -/
def jsRound (x : ℚ) : ℤ := ⌊x + 1/2⌋

/-- Clamp step of encodeWav (audio-engine.ts line 198):
s = Math.max(-1, Math.min(1, s)). -/
def clampSample (f : ℚ) : ℚ := max (-1) (min 1 f)

/-- Float-to-int16 conversion of encodeWav (audio-engine.ts lines 196-201):
clamp to [-1,1], scale by 32768 for negative samples and 32767 for
nonnegative ones, then Math.round. -/
def encodeSample (f : ℚ) : ℤ :=
  if clampSample f < 0 then jsRound (clampSample f * 32768)
  else jsRound (clampSample f * 32767)

/-- Int16-to-float decode used by streamPlaybackChunk (audio-engine.ts
line 254) and by onPlayAudioStreamChunk (renderer.ts line 444):
channelData[i] = int16 / 32768, with no case split on the sign. -/
def decodeSample (s : ℤ) : ℚ := (s : ℚ) / 32768

/-- Decode mapping as the design document states it:
s/32768 when s < 0 and s/32767 when s >= 0. -/
def specDecodeSample (s : ℤ) : ℚ :=
  if s < 0 then (s : ℚ) / 32768 else (s : ℚ) / 32767

theorem jsRound_close (x : ℚ) : |(jsRound x : ℚ) - x| ≤ 1/2 := by
  have h1 : ((⌊x + 1/2⌋ : ℤ) : ℚ) ≤ x + 1/2 := Int.floor_le _
  have h2 : x + 1/2 < ((⌊x + 1/2⌋ : ℤ) : ℚ) + 1 := Int.lt_floor_add_one _
  simp only [jsRound, abs_le]
  constructor <;> linarith

/-- C1 counterexample: at sample 32767 the playback decode used by the code
(division by 32768 regardless of sign) differs from the asymmetric mapping
claimed by the design document (which would give 32767/32767 = 1). -/
theorem decodeSample_ne_specDecodeSample_at_32767 :
    decodeSample 32767 ≠ specDecodeSample 32767 := by
  simp only [decodeSample, specDecodeSample]
  norm_num

/-- C1 (amended): the playback decode maps every 16-bit sample s to s/32768
(symmetric, not the asymmetric mapping of the spec); it is the exact inverse
of the capture encoder only on negative samples.  Encoding any float sample
in [-1,1] and decoding it back reproduces the original within 3/65536
(one and a half quantization steps), and within half a step (1/65536)
for negative samples. -/
theorem encode_decode_roundtrip (f : ℚ) (h1 : -1 ≤ f) (h2 : f ≤ 1) :
    |decodeSample (encodeSample f) - f| ≤ 3/65536 ∧
    (f < 0 → |decodeSample (encodeSample f) - f| ≤ 1/65536) := by
  have hclamp : clampSample f = f := by
    simp only [clampSample]
    rw [min_eq_right h2, max_eq_right h1]
  by_cases hf : f < 0
  · have key : decodeSample (encodeSample f) - f =
        ((jsRound (f * 32768) : ℚ) - f * 32768) / 32768 := by
      simp only [decodeSample, encodeSample, hclamp, if_pos hf]
      ring
    have hb := jsRound_close (f * 32768)
    rw [abs_le] at hb
    rw [key, abs_le]
    refine ⟨⟨by linarith [hb.1], by linarith [hb.2]⟩, fun _ => ?_⟩
    rw [abs_le]
    exact ⟨by linarith [hb.1], by linarith [hb.2]⟩
  · have key : decodeSample (encodeSample f) - f =
        ((jsRound (f * 32767) : ℚ) - f * 32767) / 32768 + (-f) / 32768 := by
      simp only [decodeSample, encodeSample, hclamp, if_neg hf]
      ring
    have hb := jsRound_close (f * 32767)
    rw [abs_le] at hb
    have hf0 : 0 ≤ f := le_of_not_lt hf
    refine ⟨?_, fun hneg => absurd hneg hf⟩
    rw [key, abs_le]
    constructor <;> [linarith [hb.1]; linarith [hb.2]]

/-- Witness for the amended C1 theorem at f = 1/2. -/
theorem encode_decode_roundtrip_witness :
    (-1 : ℚ) ≤ 1/2 ∧ (1/2 : ℚ) ≤ 1 ∧
    |decodeSample (encodeSample (1/2)) - 1/2| ≤ 3/65536 :=
  ⟨by norm_num, by norm_num,
    (encode_decode_roundtrip (1/2) (by norm_num) (by norm_num)).1⟩

/- ── §4.1 HotkeyMatcher (FnHook, configurable-chord revision) ───────── -/

/-- uiohook-napi UiohookKey code for the left Ctrl key. -/
def ctrlLeftCode : ℕ := 29

/-- uiohook-napi UiohookKey code for the right Ctrl key. -/
def ctrlRightCode : ℕ := 3613

/-- uiohook-napi UiohookKey code for the left Shift key. -/
def shiftLeftCode : ℕ := 42

/-- uiohook-napi UiohookKey code for the right Shift key. -/
def shiftRightCode : ℕ := 54

/-- uiohook-napi UiohookKey code for the left Alt key. -/
def altLeftCode : ℕ := 56

/-- uiohook-napi UiohookKey code for the right Alt key. -/
def altRightCode : ℕ := 3640

/-- uiohook-napi UiohookKey code for the left Meta key. -/
def metaLeftCode : ℕ := 3675

/-- uiohook-napi UiohookKey code for the right Meta key. -/
def metaRightCode : ℕ := 3676

/-- KeyBinding (config.ts): the configured chord, a main key code plus four
required-modifier flags. -/
structure KeyBinding where
  keycode : ℕ
  ctrl : Bool
  shift : Bool
  alt : Bool
  meta : Bool
deriving DecidableEq, Repr

/-- A raw uiohook keyboard event: key code plus the four live modifier
flags, as delivered to the FnHook listeners. -/
structure KeyEvent where
  keycode : ℕ
  ctrlKey : Bool
  shiftKey : Bool
  altKey : Bool
  metaKey : Bool
deriving DecidableEq, Repr

/-- getReleaseCodes of the configurable FnHook revision: the main key code
followed by the left and right physical variants of every modifier that
participates in the chord. -/
def getReleaseCodes (b : KeyBinding) : List ℕ :=
  [b.keycode]
    ++ (if b.ctrl then [ctrlLeftCode, ctrlRightCode] else [])
    ++ (if b.shift then [shiftLeftCode, shiftRightCode] else [])
    ++ (if b.alt then [altLeftCode, altRightCode] else [])
    ++ (if b.meta then [metaLeftCode, metaRightCode] else [])

/-- The keydown match check of FnHook.start: key code and all four modifier
flags of the event must equal the chord exactly. -/
def matchesChord (b : KeyBinding) (e : KeyEvent) : Bool :=
  e.keycode == b.keycode && e.ctrlKey == b.ctrl && e.shiftKey == b.shift
    && e.altKey == b.alt && e.metaKey == b.meta

/-- The keydown listener of FnHook.start: given the current active flag and
an event, returns the new active flag and whether onFnDown (Pressed) fired.
A keydown while already active is ignored (auto-repeat suppression). -/
def fnHookKeydown (b : KeyBinding) (active : Bool) (e : KeyEvent) :
    Bool × Bool :=
  if active then (active, false)
  else if matchesChord b e then (true, true)
  else (active, false)

/-- The keyup listener of FnHook.start: given the current active flag and an
event, returns the new active flag and whether onFnUp (Released) fired.
A keyup while not active is ignored; otherwise Released fires exactly when
the released code is in the release-code set. -/
def fnHookKeyup (b : KeyBinding) (active : Bool) (e : KeyEvent) :
    Bool × Bool :=
  if !active then (active, false)
  else if (getReleaseCodes b).contains e.keycode then (false, true)
  else (active, false)

/-- C3: while the matcher is not active, a keydown fires Pressed if and only
if the event's key code equals the chord's main key code and all four
modifier flags of the event exactly equal the chord's configured flags; any
extra or missing modifier fires nothing. -/
theorem keydown_pressed_iff_exact (b : KeyBinding) (e : KeyEvent)
    (active : Bool) (h : active = false) :
    (fnHookKeydown b active e).2 = true ↔
      e.keycode = b.keycode ∧ e.ctrlKey = b.ctrl ∧ e.shiftKey = b.shift ∧
        e.altKey = b.alt ∧ e.metaKey = b.meta := by
  subst h
  constructor
  · intro hc
    by_cases hm : matchesChord b e = true
    · simp only [matchesChord, Bool.and_eq_true, beq_iff_eq] at hm
      exact ⟨hm.1.1.1.1, hm.1.1.1.2, hm.1.1.2, hm.1.2, hm.2⟩
    · simp [fnHookKeydown, hm] at hc
  · rintro ⟨h1, h2, h3, h4, h5⟩
    simp [fnHookKeydown, matchesChord, h1, h2, h3, h4, h5]

/-- Witness for the C3 theorem at a concrete chord and event. -/
theorem keydown_pressed_iff_exact_witness :
    (fnHookKeydown ⟨23, false, true, false, true⟩ false
        ⟨23, false, true, false, true⟩).2 = true ↔
      (23 : ℕ) = 23 ∧ false = false ∧ true = true ∧ false = false ∧
        true = true :=
  keydown_pressed_iff_exact ⟨23, false, true, false, true⟩
    ⟨23, false, true, false, true⟩ false rfl

/-- C7: while the matcher is active, a keyup fires Released if and only if
the released code is in the release-code set, which holds exactly when the
code is the chord's main key or a left/right physical variant of a modifier
that participates in the chord; and once Released fires the matcher is
inactive, so no further keyup can fire a second Released. -/
theorem keyup_released_iff_release_code (b : KeyBinding) (e : KeyEvent)
    (active : Bool) (h : active = true) :
    ((fnHookKeyup b active e).2 = true ↔ e.keycode ∈ getReleaseCodes b) ∧
    (∀ c : ℕ, c ∈ getReleaseCodes b ↔
      c = b.keycode ∨
        (b.ctrl = true ∧ (c = ctrlLeftCode ∨ c = ctrlRightCode)) ∨
        (b.shift = true ∧ (c = shiftLeftCode ∨ c = shiftRightCode)) ∨
        (b.alt = true ∧ (c = altLeftCode ∨ c = altRightCode)) ∨
        (b.meta = true ∧ (c = metaLeftCode ∨ c = metaRightCode))) ∧
    ((fnHookKeyup b active e).2 = true →
      (fnHookKeyup b active e).1 = false ∧
        ∀ e2 : KeyEvent,
          (fnHookKeyup b (fnHookKeyup b active e).1 e2).2 = false) := by
  subst h
  refine ⟨?_, ?_, ?_⟩
  · by_cases hc : e.keycode ∈ getReleaseCodes b
    · simp [fnHookKeyup, hc]
    · simp [fnHookKeyup, hc]
  · intro c
    simp only [getReleaseCodes, List.mem_append, List.mem_singleton]
    split_ifs <;> simp_all <;> tauto
  · intro hfired
    by_cases hc : e.keycode ∈ getReleaseCodes b
    · constructor
      · simp [fnHookKeyup, hc]
      · intro e2
        simp [fnHookKeyup, hc]
    · simp [fnHookKeyup, hc] at hfired

/-- Witness for the C7 theorem: a chord requiring Shift and Meta is released
by lifting the right Shift key. -/
theorem keyup_released_iff_release_code_witness :
    (fnHookKeyup ⟨23, false, true, false, true⟩ true
      ⟨54, false, false, false, false⟩).2 = true :=
  ((keyup_released_iff_release_code ⟨23, false, true, false, true⟩
      ⟨54, false, false, false, false⟩ true rfl).1).mpr (by decide)

/- ── §4.2 PipelineOrchestrator single-flight (main.ts setupFnHook) ──── -/

/-- AppState from shared/types.ts: the global pipeline state. -/
inductive AppState
  | idle | recording | transcribing | thinking | speaking | error
deriving DecidableEq, Repr

/-- The observable state touched by the onFnDown callback of setupFnHook in
main.ts: the pipeline state plus a count of Recording sessions started
(START_RECORDING messages sent to the renderer). -/
structure OrchestratorState where
  state : AppState
  recordingSessionsStarted : ℕ
deriving DecidableEq, Repr

/-- The onFnDown callback of setupFnHook (main.ts): a Pressed signal while
the state is anything other than idle is only logged and ignored; from idle
it sets the state to recording and starts one capture session. -/
def onFnDown (s : OrchestratorState) : OrchestratorState :=
  if s.state ≠ AppState.idle then s
  else { state := AppState.recording,
         recordingSessionsStarted := s.recordingSessionsStarted + 1 }

/-- C6: a Pressed signal while the pipeline is non-idle is ignored and starts
no new Recording session, so two Pressed signals with no intervening
Released start exactly one Recording session. -/
theorem pressed_single_flight (s : OrchestratorState) :
    (s.state ≠ AppState.idle → onFnDown s = s) ∧
    (s.state = AppState.idle →
      onFnDown (onFnDown s) =
        ⟨AppState.recording, s.recordingSessionsStarted + 1⟩) := by
  constructor
  · intro hne
    simp [onFnDown, hne]
  · intro hidle
    have h1 : onFnDown s =
        ⟨AppState.recording, s.recordingSessionsStarted + 1⟩ := by
      simp [onFnDown, hidle]
    rw [h1]
    simp [onFnDown]

/-- Witness for the C6 theorem: starting from idle with zero sessions, two
Pressed signals yield exactly one started Recording session. -/
theorem pressed_single_flight_witness :
    onFnDown (onFnDown ⟨AppState.idle, 0⟩) = ⟨AppState.recording, 1⟩ :=
  (pressed_single_flight ⟨AppState.idle, 0⟩).2 rfl

/- ── §4.3 PlaybackScheduler (audio-engine.ts streaming playback) ────── -/

/-- Sample count computed by streamPlaybackChunk:
pcmData.length / bytesPerSample / channels with bytesPerSample =
bitsPerSample / 8, over ℚ as in JS float arithmetic. -/
def chunkSampleCount (byteLength channels bitsPerSample : ℕ) : ℚ :=
  (byteLength : ℚ) / ((bitsPerSample : ℚ) / 8) / (channels : ℚ)

/-- Scheduled duration of a chunk: audioBuffer.duration =
sampleCount / sampleRate. -/
def chunkDuration (byteLength sampleRate channels bitsPerSample : ℕ) : ℚ :=
  chunkSampleCount byteLength channels bitsPerSample / (sampleRate : ℚ)

/-- The module-level mutable state of the streaming playback engine in
audio-engine.ts: the play-time cursor streamNextPlayTime, the
streamActiveSources count, the streamEnded flag, whether
playbackDoneCallback is still non-null, and how many times the done
callback has been invoked (for the exactly-once property). -/
structure StreamState where
  nextPlayTime : ℚ
  activeSources : ℤ
  ended : Bool
  cbPresent : Bool
  fired : ℕ
deriving DecidableEq, Repr

/-- streamPlaybackStart: reset the cursor and counters and arm a fresh
session with the done callback installed. -/
def streamPlaybackStart : StreamState :=
  { nextPlayTime := 0, activeSources := 0, ended := false,
    cbPresent := true, fired := 0 }

/-- streamPlaybackChunk at audio-clock value now: a chunk with no samples is
dropped; otherwise the source starts at max(now, nextPlayTime), the cursor
advances by the chunk duration and the active count increments.  Returns
the new state and the scheduled start time of the source, if any. -/
def streamPlaybackChunk (s : StreamState) (now : ℚ)
    (byteLength sampleRate channels bitsPerSample : ℕ) :
    StreamState × Option ℚ :=
  if chunkSampleCount byteLength channels bitsPerSample ≤ 0 then (s, none)
  else
    let start := max now s.nextPlayTime
    ({ s with
        nextPlayTime :=
          start + chunkDuration byteLength sampleRate channels bitsPerSample,
        activeSources := s.activeSources + 1 },
      some start)

/-- The statement pair playbackDoneCallback?.(); playbackDoneCallback =
null: invoke the done callback when still installed, then clear it. -/
def fireCb (s : StreamState) : StreamState :=
  { s with
      fired := if s.cbPresent then s.fired + 1 else s.fired,
      cbPresent := false }

/-- The onended handler installed by streamPlaybackChunk: decrement the
active count; if the session has ended and the count is at or below zero,
invoke and clear the done callback. -/
def sourceEnded (s : StreamState) : StreamState :=
  if s.ended = true ∧ s.activeSources - 1 ≤ 0 then
    fireCb { s with activeSources := s.activeSources - 1 }
  else { s with activeSources := s.activeSources - 1 }

/-- streamPlaybackEnd: mark the session ended; if no source is active,
invoke and clear the done callback immediately. -/
def streamPlaybackEnd (s : StreamState) : StreamState :=
  if s.activeSources ≤ 0 then fireCb { s with ended := true }
  else { s with ended := true }

/-- The externally visible events of one playback session. -/
inductive StreamEvent
  | push (now : ℚ) (byteLength sampleRate channels bitsPerSample : ℕ)
  | sourceDone
  | sessionEnd
deriving DecidableEq, Repr

/-- Apply one event to the stream state. -/
def streamStep (s : StreamState) : StreamEvent → StreamState
  | .push now byteLength sampleRate channels bitsPerSample =>
      (streamPlaybackChunk s now byteLength sampleRate channels
        bitsPerSample).1
  | .sourceDone => sourceEnded s
  | .sessionEnd => streamPlaybackEnd s

/-- Run a list of events from a fresh session. -/
def streamRun (events : List StreamEvent) : StreamState :=
  events.foldl streamStep streamPlaybackStart

/-- Session invariant tying the done-callback slot to the fire count. -/
def StreamInv (s : StreamState) : Prop :=
  (s.cbPresent = true ↔ s.fired = 0) ∧ s.fired ≤ 1 ∧
    (s.fired = 1 → s.ended = true) ∧
    (s.ended = true → s.activeSources ≤ 0 → s.fired = 1)

theorem streamInv_start : StreamInv streamPlaybackStart := by
  refine ⟨by simp [streamPlaybackStart], by simp [streamPlaybackStart],
    ?_, ?_⟩ <;> simp [streamPlaybackStart]

/-- After fireCb the callback is gone, one total invocation has happened,
and the other fields are untouched. -/
theorem fireCb_spec (s : StreamState)
    (h : s.cbPresent = true ↔ s.fired = 0) (hle : s.fired ≤ 1) :
    (fireCb s).fired = 1 ∧ (fireCb s).cbPresent = false ∧
      (fireCb s).ended = s.ended ∧
      (fireCb s).activeSources = s.activeSources := by
  by_cases hp : s.cbPresent = true
  · have h0 := h.mp hp
    exact ⟨by simp [fireCb, hp, h0], rfl, rfl, rfl⟩
  · have h1 : s.fired = 1 := by
      have h0 : s.fired ≠ 0 := fun h0 => hp (h.mpr h0)
      omega
    exact ⟨by simp [fireCb, hp, h1], rfl, rfl, rfl⟩

theorem streamInv_step (s : StreamState) (e : StreamEvent)
    (h : StreamInv s) : StreamInv (streamStep s e) := by
  obtain ⟨hcb, hle, hfe, hez⟩ := h
  cases e with
  | push now byteLength sampleRate channels bitsPerSample =>
      simp only [streamStep, streamPlaybackChunk]
      by_cases hsc : chunkSampleCount byteLength channels bitsPerSample ≤ 0
      · rw [if_pos hsc]
        exact ⟨hcb, hle, hfe, hez⟩
      · rw [if_neg hsc]
        refine ⟨hcb, hle, hfe, fun he ha => hez he ?_⟩
        have ha2 : s.activeSources + 1 ≤ 0 := ha
        omega
  | sourceDone =>
      simp only [streamStep, sourceEnded]
      by_cases hcond : s.ended = true ∧ s.activeSources - 1 ≤ 0
      · rw [if_pos hcond]
        obtain ⟨f1, f2, f3, f4⟩ :=
          fireCb_spec { s with activeSources := s.activeSources - 1 } hcb hle
        refine ⟨?_, ?_, ?_, ?_⟩
        · rw [f2, f1]
          simp
        · rw [f1]
        · intro _
          rw [f3]
          exact hcond.1
        · intro _ _
          exact f1
      · rw [if_neg hcond]
        exact ⟨hcb, hle, hfe, fun he ha => absurd ⟨he, ha⟩ hcond⟩
  | sessionEnd =>
      simp only [streamStep, streamPlaybackEnd]
      by_cases hcond : s.activeSources ≤ 0
      · rw [if_pos hcond]
        obtain ⟨f1, f2, f3, f4⟩ :=
          fireCb_spec { s with ended := true } hcb hle
        refine ⟨?_, ?_, ?_, ?_⟩
        · rw [f2, f1]
          simp
        · rw [f1]
        · intro _
          rw [f3]
        · intro _ _
          exact f1
      · rw [if_neg hcond]
        exact ⟨hcb, hle, fun _ => rfl, fun _ ha => absurd ha hcond⟩

theorem streamInv_foldl (l : List StreamEvent) (s : StreamState)
    (h : StreamInv s) : StreamInv (l.foldl streamStep s) := by
  induction l generalizing s with
  | nil => exact h
  | cons e t ih => exact ih _ (streamInv_step s e h)

/-- A push event never changes the ended flag. -/
theorem streamStep_push_ended (s : StreamState) (now : ℚ)
    (byteLength sampleRate channels bitsPerSample : ℕ) :
    (streamStep s (.push now byteLength sampleRate channels
      bitsPerSample)).ended = s.ended := by
  simp only [streamStep, streamPlaybackChunk]
  by_cases hsc : chunkSampleCount byteLength channels bitsPerSample ≤ 0
  · rw [if_pos hsc]
  · rw [if_neg hsc]

/-- A source-completion event never changes the ended flag. -/
theorem streamStep_sourceDone_ended (s : StreamState) :
    (streamStep s .sourceDone).ended = s.ended := by
  simp only [streamStep, sourceEnded]
  by_cases hcond : s.ended = true ∧ s.activeSources - 1 ≤ 0
  · rw [if_pos hcond]
    rfl
  · rw [if_neg hcond]

theorem streamRun_ended_iff (l : List StreamEvent) (s : StreamState) :
    (l.foldl streamStep s).ended = true ↔
      s.ended = true ∨ StreamEvent.sessionEnd ∈ l := by
  induction l generalizing s with
  | nil => simp
  | cons e t ih =>
      rw [List.foldl_cons, ih]
      cases e with
      | push now byteLength sampleRate channels bitsPerSample =>
          rw [streamStep_push_ended]
          simp only [List.mem_cons]
          constructor
          · rintro (h | h)
            · exact Or.inl h
            · exact Or.inr (Or.inr h)
          · rintro (h | h | h)
            · exact Or.inl h
            · exact absurd h (by simp)
            · exact Or.inr h
      | sourceDone =>
          rw [streamStep_sourceDone_ended]
          simp only [List.mem_cons]
          constructor
          · rintro (h | h)
            · exact Or.inl h
            · exact Or.inr (Or.inr h)
          · rintro (h | h | h)
            · exact Or.inl h
            · exact absurd h (by simp)
            · exact Or.inr h
      | sessionEnd =>
          have hend : (streamStep s .sessionEnd).ended = true := by
            simp only [streamStep, streamPlaybackEnd]
            by_cases hcond : s.activeSources ≤ 0
            · rw [if_pos hcond]
              rfl
            · rw [if_neg hcond]
          simp [hend]

/-- The fire count changes at a step only when, right after the step, the
session is ended and the active count is at or below zero. -/
theorem streamStep_fired_change (s : StreamState) (e : StreamEvent)
    (h : (streamStep s e).fired ≠ s.fired) :
    (streamStep s e).ended = true ∧ (streamStep s e).activeSources ≤ 0 := by
  cases e with
  | push now byteLength sampleRate channels bitsPerSample =>
      exfalso
      apply h
      simp only [streamStep, streamPlaybackChunk]
      by_cases hsc : chunkSampleCount byteLength channels bitsPerSample ≤ 0
      · rw [if_pos hsc]
      · rw [if_neg hsc]
  | sourceDone =>
      simp only [streamStep, sourceEnded] at h ⊢
      by_cases hcond : s.ended = true ∧ s.activeSources - 1 ≤ 0
      · rw [if_pos hcond]
        exact ⟨hcond.1, hcond.2⟩
      · rw [if_neg hcond] at h
        exact absurd rfl h
  | sessionEnd =>
      simp only [streamStep, streamPlaybackEnd] at h ⊢
      by_cases hcond : s.activeSources ≤ 0
      · rw [if_pos hcond]
        exact ⟨rfl, hcond⟩
      · rw [if_neg hcond] at h
        exact absurd rfl h

/-- C4: over any event interleaving of one session, the done callback fires
at most once; if it fired, endSession occurred; whenever endSession has
occurred and the active-source count has drained to zero it has fired
(in particular, a session ended with nothing active fires immediately);
and the fire count can only change at an instant where the session is ended
and no source is active. -/
theorem playback_done_exactly_once (events : List StreamEvent) :
    (streamRun events).fired ≤ 1 ∧
    ((streamRun events).fired = 1 → StreamEvent.sessionEnd ∈ events) ∧
    (StreamEvent.sessionEnd ∈ events →
      (streamRun events).activeSources ≤ 0 → (streamRun events).fired = 1) ∧
    (∀ e : StreamEvent,
      (streamStep (streamRun events) e).fired ≠ (streamRun events).fired →
        (streamStep (streamRun events) e).ended = true ∧
          (streamStep (streamRun events) e).activeSources ≤ 0) := by
  have hinv : StreamInv (streamRun events) :=
    streamInv_foldl events streamPlaybackStart streamInv_start
  obtain ⟨hcb, hle, hfe, hez⟩ := hinv
  have hiff := streamRun_ended_iff events streamPlaybackStart
  refine ⟨hle, ?_, ?_, fun e => streamStep_fired_change (streamRun events) e⟩
  · intro hf
    rcases hiff.mp (hfe hf) with h | h
    · exact absurd h (by simp [streamPlaybackStart])
    · exact h
  · intro hmem ha
    exact hez (hiff.mpr (Or.inr hmem)) ha

/-- Witness for the C4 theorem: the zero-chunk session, where endSession is
the only event, fires the done callback immediately and exactly once. -/
theorem playback_done_exactly_once_witness :
    (streamRun [StreamEvent.sessionEnd]).fired = 1 :=
  (playback_done_exactly_once [StreamEvent.sessionEnd]).2.2.1
    (by simp) (by decide)

/-- C5: the play-time cursor is monotonically non-decreasing across
pushChunk calls, and two chunks pushed at the same clock instant are
scheduled back to back: the second starts exactly where the first ends. -/
theorem playback_cursor_gapless (s : StreamState) (now : ℚ)
    (b1 r1 c1 p1 b2 r2 c2 p2 : ℕ) :
    s.nextPlayTime ≤ ((streamPlaybackChunk s now b1 r1 c1 p1).1).nextPlayTime ∧
    (0 < chunkSampleCount b1 c1 p1 → 0 < chunkSampleCount b2 c2 p2 →
      ∀ t1 t2 : ℚ,
        (streamPlaybackChunk s now b1 r1 c1 p1).2 = some t1 →
        (streamPlaybackChunk (streamPlaybackChunk s now b1 r1 c1 p1).1 now
          b2 r2 c2 p2).2 = some t2 →
        t2 = t1 + chunkDuration b1 r1 c1 p1) := by
  have hd1 : 0 ≤ chunkDuration b1 r1 c1 p1 ∨
      chunkSampleCount b1 c1 p1 ≤ 0 := by
    rcases le_or_lt (chunkSampleCount b1 c1 p1) 0 with h | h
    · exact Or.inr h
    · refine Or.inl (div_nonneg (le_of_lt h) (by positivity))
  constructor
  · simp only [streamPlaybackChunk]
    split_ifs with hsc
    · exact le_refl _
    · rcases hd1 with h | h
      · have := le_max_right now s.nextPlayTime
        simp only []
        linarith
      · exact absurd h hsc
  · intro hp1 hp2 t1 t2 h1 h2
    have hsc1 : ¬ chunkSampleCount b1 c1 p1 ≤ 0 := not_le.mpr hp1
    have hsc2 : ¬ chunkSampleCount b2 c2 p2 ≤ 0 := not_le.mpr hp2
    have hdur : 0 ≤ chunkDuration b1 r1 c1 p1 := by
      rcases hd1 with h | h
      · exact h
      · exact absurd h hsc1
    simp only [streamPlaybackChunk, hsc1, hsc2, if_neg, if_false] at h1 h2
    have ht1 : t1 = max now s.nextPlayTime := by
      simpa using h1.symm
    have ht2 : t2 = max now (max now s.nextPlayTime +
        chunkDuration b1 r1 c1 p1) := by
      simpa using h2.symm
    have hge : now ≤ max now s.nextPlayTime + chunkDuration b1 r1 c1 p1 := by
      have := le_max_left now s.nextPlayTime
      linarith
    rw [ht1, ht2, max_eq_right hge]

/-- Witness for the C5 theorem: two 4800-byte 24 kHz mono 16-bit chunks
pushed at clock 0 make the second start at 1/10, exactly where the first
(scheduled at 0, duration 1/10) ends. -/
theorem playback_cursor_gapless_witness :
    (1/10 : ℚ) = 0 + chunkDuration 4800 24000 1 16 :=
  (playback_cursor_gapless streamPlaybackStart 0 4800 24000 1 16
      4800 24000 1 16).2 (by norm_num [chunkSampleCount])
    (by norm_num [chunkSampleCount]) 0 (1/10)
    (by norm_num [streamPlaybackChunk, chunkSampleCount, streamPlaybackStart])
    (by norm_num [streamPlaybackChunk, chunkSampleCount, chunkDuration,
      streamPlaybackStart])

/- ── §4.2/§5 Segment ordering via the TTS promise chain (main.ts) ───── -/

/-- The ttsChain promise chain of the RECORDING_DATA handler in main.ts:
for each completed reply segment the handler appends a synthesize-and-
enqueue task with ttsChain = ttsChain.then(task), so a task starts only
after the previous task finished issuing its enqueues.  Running the chain
therefore emits every task's PCM chunk enqueues one task after another, in
arrival order; task n holds the chunks synthesized for segment n. -/
def runTtsChain {α : Type} : List (List α) → List α
  | [] => []
  | t :: ts => t ++ runTtsChain ts

/-- Position, in the chain's overall enqueue order, at which segment i's
chunks begin: the total number of chunks of the earlier segments. -/
def segmentOffset {α : Type} : List (List α) → ℕ → ℕ
  | _, 0 => 0
  | [], _ + 1 => 0
  | t :: ts, i + 1 => t.length + segmentOffset ts i

theorem runTtsChain_getElem {α : Type} (tasks : List (List α)) (i k : ℕ)
    (hi : i < tasks.length) (hk : k < (tasks.getD i []).length) :
    (runTtsChain tasks)[segmentOffset tasks i + k]? =
      (tasks.getD i [])[k]? := by
  induction tasks generalizing i with
  | nil => simp at hi
  | cons t ts ih =>
      cases i with
      | zero =>
          simp only [segmentOffset, runTtsChain, Nat.zero_add]
          simp only [List.getD_cons_zero] at hk ⊢
          exact List.getElem?_append_left hk
      | succ i2 =>
          simp only [segmentOffset, runTtsChain, List.getD_cons_succ] at hk ⊢
          rw [Nat.add_assoc, List.getElem?_append_right (by omega),
            Nat.add_sub_cancel_left]
          exact ih i2 (by simpa using hi) hk

theorem segmentOffset_add_le {α : Type} (tasks : List (List α)) (i j : ℕ)
    (hij : i < j) (hj : j ≤ tasks.length) :
    segmentOffset tasks i + (tasks.getD i []).length ≤
      segmentOffset tasks j := by
  induction tasks generalizing i j with
  | nil =>
      simp only [List.length_nil] at hj
      omega
  | cons t ts ih =>
      cases j with
      | zero => omega
      | succ j2 =>
          cases i with
          | zero =>
              simp only [segmentOffset, List.getD_cons_zero, Nat.zero_add]
              omega
          | succ i2 =>
              simp only [segmentOffset, List.getD_cons_succ]
              have := ih i2 j2 (by omega) (by simpa using hj)
              omega

/-- C2: the promise chain enqueues the PCM chunks of distinct segments in
segment order and never interleaves them: chunk k of segment i sits at
position segmentOffset i + k of the overall enqueue order, and every chunk
position of an earlier segment is strictly below every chunk position of a
later segment. -/
theorem tts_chain_segment_order (tasks : List (List ℕ)) (i j k l : ℕ)
    (hij : i < j) (hj : j < tasks.length)
    (hk : k < (tasks.getD i []).length) (hl : l < (tasks.getD j []).length) :
    (runTtsChain tasks)[segmentOffset tasks i + k]? =
        (tasks.getD i [])[k]? ∧
      (runTtsChain tasks)[segmentOffset tasks j + l]? =
        (tasks.getD j [])[l]? ∧
      segmentOffset tasks i + k < segmentOffset tasks j + l := by
  refine ⟨runTtsChain_getElem tasks i k (by omega) hk,
    runTtsChain_getElem tasks j l hj hl, ?_⟩
  have := segmentOffset_add_le tasks i j hij (by omega)
  omega

/-- Witness for the C2 theorem: two segments with chunks [1,2] and [3]. -/
theorem tts_chain_segment_order_witness :
    (runTtsChain [[1, 2], [3]])[segmentOffset [[1, 2], [3]] 0 + 1]? =
        (([[1, 2], [3]] : List (List ℕ)).getD 0 [])[1]? ∧
      (runTtsChain [[1, 2], [3]])[segmentOffset [[1, 2], [3]] 1 + 0]? =
        (([[1, 2], [3]] : List (List ℕ)).getD 1 [])[0]? ∧
      segmentOffset [[1, 2], [3]] 0 + 1 < segmentOffset [[1, 2], [3]] 1 + 0 :=
  tts_chain_segment_order [[1, 2], [3]] 0 1 1 0 (by norm_num) (by norm_num)
    (by norm_num) (by norm_num)

/- ── synthesizeStreamGemini 16-bit alignment (tts.ts) ───────────────── -/

/-- One iteration of the inline-data loop of synthesizeStreamGemini
(tts.ts): prepend the carried-over byte block to the freshly decoded data,
hold back the odd remainder (pcm.length mod 2 bytes) for the next chunk,
and yield the aligned front when it is nonempty.  Bytes are modelled as
naturals.  Returns the new leftover and the yielded chunk, if any. -/
def ttsAlignStep (leftover data : List ℕ) : List ℕ × Option (List ℕ) :=
  let pcm := leftover ++ data
  let keep := pcm.length % 2
  let aligned := pcm.take (pcm.length - keep)
  (pcm.drop (pcm.length - keep),
    if 0 < aligned.length then some aligned else none)

/-- The generator loop of synthesizeStreamGemini over the sequence of
decoded inline-data byte blocks: returns the chunks yielded inside the
loop and the final leftover awaiting the flush. -/
def ttsProcess : List ℕ → List (List ℕ) → List (List ℕ) × List ℕ
  | leftover, [] => ([], leftover)
  | leftover, d :: ds =>
      let step := ttsAlignStep leftover d
      let rest := ttsProcess step.1 ds
      (match step.2 with
        | some c => c :: rest.1
        | none => rest.1,
        rest.2)

/-- synthesizeStreamGemini in full: the chunks yielded in the loop followed
by the final leftover flush when it is nonempty. -/
def synthesizeStreamGemini (datas : List (List ℕ)) : List (List ℕ) :=
  let p := ttsProcess [] datas
  p.1 ++ (if 0 < p.2.length then [p.2] else [])

theorem ttsProcess_spec (datas : List (List ℕ)) (leftover : List ℕ) :
    ((ttsProcess leftover datas).1).flatten ++ (ttsProcess leftover datas).2 =
        leftover ++ datas.flatten ∧
      ∀ c ∈ (ttsProcess leftover datas).1, c.length % 2 = 0 ∧ c ≠ [] := by
  induction datas generalizing leftover with
  | nil => simp [ttsProcess]
  | cons d ds ih =>
      obtain ⟨ihJoin, ihEven⟩ := ih ((ttsAlignStep leftover d).1)
      have hsplit : ((ttsAlignStep leftover d).2).elim []
            (fun c => c) ++ (ttsAlignStep leftover d).1 =
          leftover ++ d := by
        simp only [ttsAlignStep]
        by_cases hpos :
            0 < ((leftover ++ d).take
              ((leftover ++ d).length - (leftover ++ d).length % 2)).length
        · rw [if_pos hpos]
          exact List.take_append_drop _ _
        · rw [if_neg hpos]
          have hlen : ((leftover ++ d).take
              ((leftover ++ d).length - (leftover ++ d).length % 2)).length
                = 0 := by omega
          have hnil := List.eq_nil_of_length_eq_zero hlen
          have := List.take_append_drop
            ((leftover ++ d).length - (leftover ++ d).length % 2)
            (leftover ++ d)
          rw [hnil] at this
          simpa using this
      have heven : ∀ c, (ttsAlignStep leftover d).2 = some c →
          c.length % 2 = 0 ∧ c ≠ [] := by
        intro c hc
        simp only [ttsAlignStep] at hc
        by_cases hpos :
            0 < ((leftover ++ d).take
              ((leftover ++ d).length - (leftover ++ d).length % 2)).length
        · rw [if_pos hpos] at hc
          have hc2 := (Option.some_inj).mp hc
          subst hc2
          constructor
          · rw [List.length_take]
            have h2 := Nat.mod_lt (leftover ++ d).length (show 0 < 2 by omega)
            omega
          · intro hnil
            rw [hnil] at hpos
            simp at hpos
        · rw [if_neg hpos] at hc
          exact absurd hc (by simp)
      constructor
      · simp only [ttsProcess]
        rcases hopt : (ttsAlignStep leftover d).2 with _ | c
        · have hs : (ttsAlignStep leftover d).1 = leftover ++ d := by
            simpa [hopt] using hsplit
          simp only [hopt]
          rw [ihJoin, hs, List.flatten_cons, List.append_assoc]
        · have hs : c ++ (ttsAlignStep leftover d).1 = leftover ++ d := by
            simpa [hopt] using hsplit
          simp only [hopt]
          rw [List.flatten_cons, List.append_assoc, ihJoin,
            ← List.append_assoc, hs, List.flatten_cons, List.append_assoc]
      · intro c hc
        simp only [ttsProcess] at hc
        rcases hopt : (ttsAlignStep leftover d).2 with _ | c2
        · rw [hopt] at hc
          exact ihEven c hc
        · rw [hopt] at hc
          rcases List.mem_cons.mp hc with h | h
          · subst h
            exact heven c hopt
          · exact ihEven c h

/-- C10: every chunk yielded by the Gemini synthesis generator before its
final flush has an even byte length and is nonempty, and the concatenation
of all yielded chunks (flush included) equals the concatenation of all
decoded inline-data bytes: nothing is dropped or reordered. -/
theorem tts_chunks_aligned_and_complete (datas : List (List ℕ)) :
    (∀ c ∈ (ttsProcess [] datas).1, c.length % 2 = 0 ∧ c ≠ []) ∧
      (synthesizeStreamGemini datas).flatten = datas.flatten := by
  obtain ⟨hJoin, hEven⟩ := ttsProcess_spec datas []
  refine ⟨hEven, ?_⟩
  simp only [synthesizeStreamGemini]
  by_cases hp : 0 < (ttsProcess [] datas).2.length
  · rw [if_pos hp]
    rw [List.flatten_append]
    simpa using hJoin
  · rw [if_neg hp]
    have hnil : (ttsProcess [] datas).2 = [] :=
      List.eq_nil_of_length_eq_zero (by omega)
    rw [hnil] at hJoin
    simpa using hJoin

/-- Witness for the C10 theorem: blocks [1,2,3] and [4] are re-chunked as
[1,2] and [3,4] with nothing lost. -/
theorem tts_chunks_aligned_and_complete_witness :
    (synthesizeStreamGemini [[1, 2, 3], [4]]).flatten =
      ([[1, 2, 3], [4]] : List (List ℕ)).flatten :=
  (tts_chunks_aligned_and_complete [[1, 2, 3], [4]]).2

/- ── §4.5 ControlServer line handling (daemon-ipc.ts) ───────────────── -/

/-- Prepend a byte block to the first piece of a piece list (the effect a
non-separator character has on the split of the remaining text). -/
def consHead {α : Type} (p : List α) : List (List α) → List (List α)
  | [] => [p]
  | l :: ls => (p ++ l) :: ls

/-- JS string split on the newline separator, over character lists:
buffer.split of daemon-ipc.ts.  The empty text yields one empty piece and
every newline terminates the current piece. -/
def jsSplitNl : List Char → List (List Char)
  | [] => [[]]
  | c :: cs =>
      if c = '\n' then [] :: jsSplitNl cs else consHead [c] (jsSplitNl cs)

/-- All pieces except the final one: the complete newline-terminated lines
(the array left after lines.pop in daemon-ipc.ts). -/
def initParts {α : Type} : List α → List α
  | [] => []
  | [_] => []
  | x :: y :: ys => x :: initParts (y :: ys)

/-- The final piece: the partial trailing fragment kept as the new buffer
(lines.pop in daemon-ipc.ts). -/
def lastPart {α : Type} : List (List α) → List α
  | [] => []
  | [l] => l
  | _ :: l :: ls => lastPart (l :: ls)

/-- The blank-line skip of the request loop: !line.trim() in
daemon-ipc.ts. -/
def isBlankLine (l : List Char) : Bool := l.all (fun c => c.isWhitespace)

/-- The response written for one complete line by the request loop of
startDaemonServer: blank lines are skipped; otherwise the line is parsed
and handled (modelled together by handle, whose thrown exceptions are the
error case), and any exception is caught and converted into the error
response rather than crashing the connection. -/
def lineResponse {Resp : Type} (handle : List Char → Except (List Char) Resp)
    (errResp : List Char → Resp) (line : List Char) : Option Resp :=
  if isBlankLine line then none
  else some (match handle line with
    | Except.ok r => r
    | Except.error m => errResp m)

/-- The per-connection state of startDaemonServer: the partial-line buffer
and the responses written so far. -/
structure ConnState (Resp : Type) where
  buffer : List Char
  written : List Resp

/-- One data event of the connection: append the fragment to the buffer,
split on newlines, keep the last (incomplete) piece as the new buffer and
answer every complete line. -/
def connDataEvent {Resp : Type} (handle : List Char → Except (List Char) Resp)
    (errResp : List Char → Resp) (st : ConnState Resp) (data : List Char) :
    ConnState Resp :=
  let parts := jsSplitNl (st.buffer ++ data)
  { buffer := lastPart parts,
    written :=
      st.written ++ (initParts parts).filterMap (lineResponse handle errResp) }

/-- A whole connection: data events folded over an empty initial buffer. -/
def connRun {Resp : Type} (handle : List Char → Except (List Char) Resp)
    (errResp : List Char → Resp) (frags : List (List Char)) : ConnState Resp :=
  frags.foldl (connDataEvent handle errResp) ⟨[], []⟩

theorem consHead_ne_nil {α : Type} (p : List α) (ls : List (List α)) :
    consHead p ls ≠ [] := by
  cases ls <;> simp [consHead]

theorem consHead_consHead {α : Type} (p q : List α) (ls : List (List α)) :
    consHead p (consHead q ls) = consHead (p ++ q) ls := by
  cases ls <;> simp [consHead]

theorem jsSplitNl_ne_nil (x : List Char) : jsSplitNl x ≠ [] := by
  cases x with
  | nil => simp [jsSplitNl]
  | cons c cs =>
      simp only [jsSplitNl]
      by_cases hc : c = '\n'
      · rw [if_pos hc]
        simp
      · rw [if_neg hc]
        exact consHead_ne_nil _ _

theorem initParts_cons {α : Type} (x : α) (ls : List α) (h : ls ≠ []) :
    initParts (x :: ls) = x :: initParts ls := by
  cases ls with
  | nil => exact absurd rfl h
  | cons y ys => rfl

theorem lastPart_cons {α : Type} (x : List α) (ls : List (List α))
    (h : ls ≠ []) : lastPart (x :: ls) = lastPart ls := by
  cases ls with
  | nil => exact absurd rfl h
  | cons y ys => rfl

theorem initParts_append {α : Type} (xs ys : List α) (h : ys ≠ []) :
    initParts (xs ++ ys) = xs ++ initParts ys := by
  induction xs with
  | nil => rfl
  | cons x xs2 ih =>
      rw [List.cons_append,
        initParts_cons x (xs2 ++ ys) (by simp [h]), ih, List.cons_append]

theorem lastPart_append {α : Type} (xs ys : List (List α)) (h : ys ≠ []) :
    lastPart (xs ++ ys) = lastPart ys := by
  induction xs with
  | nil => rfl
  | cons x xs2 ih =>
      rw [List.cons_append, lastPart_cons x (xs2 ++ ys) (by simp [h]), ih]

theorem jsSplitNl_no_newline (x : List Char) (h : Char.ofNat 10 ∉ x) :
    jsSplitNl x = [x] := by
  induction x with
  | nil => rfl
  | cons c cs ih =>
      simp only [jsSplitNl]
      have hc : ¬ c = '\n' := by
        intro he
        exact h (by rw [he] at *; exact List.mem_cons_self _ _)
      rw [if_neg hc, ih (fun hm => h (List.mem_cons_of_mem c hm))]
      rfl

theorem newline_not_mem_lastPart (x : List Char) :
    Char.ofNat 10 ∉ lastPart (jsSplitNl x) := by
  induction x with
  | nil => simp [jsSplitNl, lastPart]
  | cons c cs ih =>
      simp only [jsSplitNl]
      by_cases hc : c = '\n'
      · rw [if_pos hc, lastPart_cons [] _ (jsSplitNl_ne_nil cs)]
        exact ih
      · rw [if_neg hc]
        rcases hs : jsSplitNl cs with _ | ⟨l, ls⟩
        · exact absurd hs (jsSplitNl_ne_nil cs)
        · rw [hs] at ih
          rcases ls with _ | ⟨l2, ls2⟩
          · simp only [consHead, lastPart]
            simp only [lastPart] at ih
            intro hm
            rcases List.mem_append.mp hm with h1 | h1
            · rw [List.mem_singleton] at h1
              exact hc h1.symm
            · exact ih h1
          · simp only [consHead]
            rw [lastPart_cons _ _ (by simp)]
            rw [lastPart_cons _ _ (by simp)] at ih
            exact ih

theorem jsSplitNl_append (a b : List Char) :
    jsSplitNl (a ++ b) =
      initParts (jsSplitNl a) ++
        consHead (lastPart (jsSplitNl a)) (jsSplitNl b) := by
  induction a with
  | nil =>
      simp only [List.nil_append, jsSplitNl, initParts, lastPart]
      rcases hs : jsSplitNl b with _ | ⟨l, ls⟩
      · exact absurd hs (jsSplitNl_ne_nil b)
      · simp [consHead]
  | cons c a2 ih =>
      simp only [List.cons_append, jsSplitNl, List.append_eq]
      by_cases hc : c = '\n'
      · simp only [if_pos hc]
        rw [ih, initParts_cons [] _ (jsSplitNl_ne_nil a2),
          lastPart_cons [] _ (jsSplitNl_ne_nil a2), List.cons_append]
      · simp only [if_neg hc]
        rw [ih]
        rcases hsa : jsSplitNl a2 with _ | ⟨l, ls⟩
        · exact absurd hsa (jsSplitNl_ne_nil a2)
        · rcases ls with _ | ⟨l2, ls2⟩
          · simp only [initParts, lastPart, List.nil_append]
            rw [consHead_consHead]
          · rfl

theorem connDataEvent_spec {Resp : Type}
    (handle : List Char → Except (List Char) Resp)
    (errResp : List Char → Resp) (t d : List Char) :
    connDataEvent handle errResp
        ⟨lastPart (jsSplitNl t),
          (initParts (jsSplitNl t)).filterMap (lineResponse handle errResp)⟩
        d =
      ⟨lastPart (jsSplitNl (t ++ d)),
        (initParts (jsSplitNl (t ++ d))).filterMap
          (lineResponse handle errResp)⟩ := by
  have hrem : jsSplitNl (lastPart (jsSplitNl t) ++ d) =
      consHead (lastPart (jsSplitNl t)) (jsSplitNl d) := by
    rw [jsSplitNl_append,
      jsSplitNl_no_newline _ (newline_not_mem_lastPart t)]
    simp [initParts, lastPart]
  simp only [connDataEvent, hrem]
  rw [jsSplitNl_append t d,
    lastPart_append _ _ (consHead_ne_nil _ _),
    initParts_append _ _ (consHead_ne_nil _ _), List.filterMap_append]

theorem connRun_foldl {Resp : Type}
    (handle : List Char → Except (List Char) Resp)
    (errResp : List Char → Resp) (frags : List (List Char)) (t : List Char) :
    List.foldl (connDataEvent handle errResp)
        ⟨lastPart (jsSplitNl t),
          (initParts (jsSplitNl t)).filterMap (lineResponse handle errResp)⟩
        frags =
      ⟨lastPart (jsSplitNl (t ++ frags.flatten)),
        (initParts (jsSplitNl (t ++ frags.flatten))).filterMap
          (lineResponse handle errResp)⟩ := by
  induction frags generalizing t with
  | nil => simp
  | cons d ds ih =>
      rw [List.foldl_cons, connDataEvent_spec, ih (t ++ d),
        List.append_assoc, List.flatten_cons]

/-- C9: the control server answers exactly the complete newline-terminated
lines of the concatenated input, independent of how the stream was split
into data events; the partial trailing fragment stays buffered; and an
exception from the per-request handler (malformed JSON included) on a
non-blank line is answered with the error response on the same
connection instead of crashing it. -/
theorem control_server_line_processing {Resp : Type}
    (handle : List Char → Except (List Char) Resp)
    (errResp : List Char → Resp) (frags : List (List Char)) :
    (connRun handle errResp frags).buffer =
        lastPart (jsSplitNl frags.flatten) ∧
      (connRun handle errResp frags).written =
        (initParts (jsSplitNl frags.flatten)).filterMap
          (lineResponse handle errResp) ∧
      (∀ line m, handle line = Except.error m → isBlankLine line = false →
        lineResponse handle errResp line = some (errResp m)) := by
  have h2 : connRun handle errResp frags =
      ⟨lastPart (jsSplitNl frags.flatten),
        (initParts (jsSplitNl frags.flatten)).filterMap
          (lineResponse handle errResp)⟩ :=
    connRun_foldl handle errResp frags []
  refine ⟨by rw [h2], by rw [h2], ?_⟩
  intro line m herr hblank
  simp [lineResponse, hblank, herr]

/-- Witness for the C9 theorem: one request split across two data events. -/
theorem control_server_line_processing_witness :
    (connRun (fun _ => Except.ok 7) (fun _ => 0)
        [[Char.ofNat 115], [Char.ofNat 10]]).written =
      (initParts (jsSplitNl
          ([[Char.ofNat 115], [Char.ofNat 10]] : List (List Char)).flatten)).filterMap
        (lineResponse (fun _ => Except.ok 7) (fun _ => 0)) :=
  (control_server_line_processing (fun _ => Except.ok 7) (fun _ => 0)
    [[Char.ofNat 115], [Char.ofNat 10]]).2.1

/- ── §6 CLI exit codes (cli.ts cmdStatus / cmdStop) ─────────────────── -/

/-- Result of sendCommand as the CLI observes it: either one response
arrived (with its ok field) or the socket was unreachable and the promise
rejected (connection failure or timeout). -/
inductive SocketOutcome
  | ok (respOk : Bool)
  | unreachable
deriving DecidableEq, Repr

/-- The environment a CLI command runs against: whether readRuntimeState
returns a live record, what the socket yields, and whether the SIGTERM
fallback (process.kill) succeeds. -/
structure CliEnv where
  runtimeRecord : Bool
  socket : SocketOutcome
  killSucceeds : Bool
deriving DecidableEq, Repr

/-- Process exit code of cmdStatus (cli.ts): with no live record it prints
not running and returns; with a record it prints the response (ok or not)
and returns; on an unreachable socket it removes the stale record, prints
not running, and returns.  No path calls process.exit, so the process
always terminates with code 0. -/
def cmdStatusExitCode (env : CliEnv) : ℕ :=
  if env.runtimeRecord = false then 0
  else
    match env.socket with
    | SocketOutcome.ok _ => 0
    | SocketOutcome.unreachable => 0

/-- Process exit code of cmdStop (cli.ts): with no live record it exits 1;
an ok:false response exits 1; on an unreachable socket it falls back to
SIGTERM, exiting 0 when the signal lands and 1 (after cleaning the stale
record) when it does not. -/
def cmdStopExitCode (env : CliEnv) : ℕ :=
  if env.runtimeRecord = false then 1
  else
    match env.socket with
    | SocketOutcome.ok true => 0
    | SocketOutcome.ok false => 1
    | SocketOutcome.unreachable => if env.killSucceeds then 0 else 1

/-- C8 counterexample: with no live runtime record the daemon is
unreachable, yet the status command terminates with exit code 0, refuting
the claim that status exits non-zero in that situation. -/
theorem status_exit_zero_counterexample :
    (CliEnv.mk false SocketOutcome.unreachable false).runtimeRecord = false ∧
      cmdStatusExitCode (CliEnv.mk false SocketOutcome.unreachable false)
        = 0 := by
  exact ⟨rfl, rfl⟩

/-- C8 (amended): the stop command exits non-zero when the daemon is
unreachable — no live runtime record, or the daemon answers ok:false, or
the socket is unreachable and the SIGTERM fallback also fails (the signal
landing counts as a successful stop) — while the status command always
exits zero, reporting an unreachable daemon as not running in text. -/
theorem cli_exit_codes (env : CliEnv) :
    cmdStatusExitCode env = 0 ∧
      (env.runtimeRecord = false → cmdStopExitCode env = 1) ∧
      (env.runtimeRecord = true → env.socket = SocketOutcome.ok false →
        cmdStopExitCode env = 1) ∧
      (env.runtimeRecord = true → env.socket = SocketOutcome.unreachable →
        env.killSucceeds = false → cmdStopExitCode env = 1) ∧
      (env.runtimeRecord = true → env.socket = SocketOutcome.unreachable →
        env.killSucceeds = true → cmdStopExitCode env = 0) := by
  obtain ⟨rec, sock, kill⟩ := env
  refine ⟨?_, ?_, ?_, ?_, ?_⟩
  · cases rec <;> cases sock <;> rfl
  · intro h
    subst h
    rfl
  · intro h1 h2
    subst h1
    subst h2
    rfl
  · intro h1 h2 h3
    subst h1
    subst h2
    subst h3
    rfl
  · intro h1 h2 h3
    subst h1
    subst h2
    subst h3
    rfl

/-- Witness for the amended C8 theorem: live record, dead socket, failing
SIGTERM makes stop exit 1. -/
theorem cli_exit_codes_witness :
    cmdStopExitCode (CliEnv.mk true SocketOutcome.unreachable false) = 1 :=
  (cli_exit_codes (CliEnv.mk true SocketOutcome.unreachable false)).2.2.2.1
    rfl rfl rfl

end PiVoice
